import Mathlib

/-!
Verification of the roommate-matching core (`src/roommateSolver.js`).

The model follows the source: parsed CSV records are association lists from
column name to cell string (a missing key models a JavaScript `undefined`
field), JavaScript numeric coercions are partial functions into `ℚ` with
`none` standing for NaN, and the external GLPK solve is an opaque function
from the built model to its response.  The decision variable named
`x_i_j_r` in the source is modelled by the index triple `(i, j, r)`: the
decimal encoding is injective and `split('_')` recovers the triple, so list
membership and value lookup agree with the string-keyed original.
-/

namespace Roommate

/-- A parsed CSV record: association list from column name to cell string.
A column absent from the record models a JavaScript `undefined` field. -/
abbrev Row := List (String × String)

/-- JavaScript truthiness of a possibly-missing string field: `undefined`
and the empty string are falsy, every other string is truthy. -/
def truthy : Option String → Bool
  | none => false
  | some s => s != ""

/-- Numeric value of a digit list read in base 10, most significant first. -/
def digitsToNat (cs : List Char) : ℕ :=
  cs.foldl (fun acc c => 10 * acc + (c.toNat - 48)) 0

/-- Model of JavaScript `Number(s)` on plain decimal strings: the empty
string converts to 0; an optional sign followed by digits with an optional
fractional part denotes the evident rational; any other string (whitespace
trimming, exponents, hex and `Infinity` forms are not modelled) is NaN,
written `none`. -/
def jsStrToNum (s : String) : Option ℚ :=
  match s.toList with
  | [] => some 0
  | c0 :: rest0 =>
    let sgn : ℚ := if c0 = '-' then -1 else 1
    let body := if c0 = '-' ∨ c0 = '+' then rest0 else c0 :: rest0
    let intPart := body.takeWhile Char.isDigit
    match body.dropWhile Char.isDigit with
    | [] => if intPart.isEmpty then none else some (sgn * (digitsToNat intPart : ℚ))
    | '.' :: frac =>
      if frac.all Char.isDigit && !(intPart.isEmpty && frac.isEmpty) then
        some (sgn * ((digitsToNat intPart : ℚ) + (digitsToNat frac : ℚ) / (10 : ℚ) ^ frac.length))
      else none
    | _ => none

/-- JavaScript `Number` coercion of a possibly-missing field:
`Number(undefined)` is NaN. -/
def jsNumField : Option String → Option ℚ
  | none => none
  | some s => jsStrToNum s

/-- Model of JavaScript `parseFloat`: the longest numeric prefix (optional
sign, digits, optional fractional part); NaN (`none`) when no digit is
found.  Exponents and whitespace trimming are not modelled. -/
def parseFloatQ (s : String) : Option ℚ :=
  match s.toList with
  | [] => none
  | c0 :: rest0 =>
    let sgn : ℚ := if c0 = '-' then -1 else 1
    let body := if c0 = '-' ∨ c0 = '+' then rest0 else c0 :: rest0
    let intPart := body.takeWhile Char.isDigit
    let frac :=
      match body.dropWhile Char.isDigit with
      | '.' :: rest => rest.takeWhile Char.isDigit
      | _ => []
    if intPart.isEmpty && frac.isEmpty then none
    else some (sgn * ((digitsToNat intPart : ℚ) + (digitsToNat frac : ℚ) / (10 : ℚ) ^ frac.length))

/-- The key rows used for categories and weights: those whose `Weighting`
and `Category` fields are both truthy
(`key.filter(k => k.Weighting && k.Category)`). -/
def usedKeyRows (key : List Row) : List Row :=
  key.filter fun k => truthy (k.lookup "Weighting") && truthy (k.lookup "Category")

/-- `categories`: the `Category` cells of the used key rows, in row order. -/
def categoriesOf (key : List Row) : List String :=
  (usedKeyRows key).map fun k => (k.lookup "Category").getD ""

/-- `weights`: `parseFloat(k.Weighting)` over the used key rows. -/
def weightsOf (key : List Row) : List (Option ℚ) :=
  (usedKeyRows key).map fun k => (k.lookup "Weighting").bind parseFloatQ

/-- The ordinal-label entries of one key row: column `"1"`..`"4"` holds the
literal label for that code; untruthy cells are skipped.  Entries are
listed back to front so that association-list lookup (first match) agrees
with the JavaScript object writes (last write wins) when two scale columns
carry the same label. -/
def scaleEntries (k : Row) : List (String × ℕ) :=
  ([4, 3, 2, 1] : List ℕ).filterMap fun sc =>
    match k.lookup (toString sc) with
    | some l => if l != "" then some (l, sc) else none
    | none => none

/-- `mappings[cat]`: the source forEach re-creates `mappings[k.Category]`
for every key row with a truthy `Category`, so the last row with this
category determines the table; `none` when no such row exists. -/
def mappingOf (key : List Row) (cat : String) : Option (List (String × ℕ)) :=
  ((key.filter fun k =>
      truthy (k.lookup "Category") && ((k.lookup "Category").getD "" == cat)).map
    scaleEntries).getLast?

/-- One normalized attribute code (a `prefMatrix` entry): a field value on
which `Number` succeeds is used directly; otherwise a literal found in the
category's ordinal mapping gives its code; otherwise the neutral code 2.
A missing field reaches the mapping lookup under the property key
`"undefined"`, the JavaScript string coercion of an `undefined` key. -/
def normEntry (mapping : Option (List (String × ℕ))) (val : Option String) : ℚ :=
  match jsNumField val with
  | some q => q
  | none =>
    match mapping.bind fun m => m.lookup (val.getD "undefined") with
    | some sc => (sc : ℚ)
    | none => 2

/-- `prefMatrix`: one row per resident, one normalized code per category. -/
def prefMatrixOf (preferences key : List Row) : List (List ℚ) :=
  preferences.map fun p =>
    (categoriesOf key).map fun cat => normEntry (mappingOf key cat) (p.lookup cat)

/-- `nameList`: the `Name` field of each resident record. -/
def nameListOf (preferences : List Row) : List (Option String) :=
  preferences.map fun p => p.lookup "Name"

/-- `genderList`: the `Gender` field of each resident record. -/
def genderListOf (preferences : List Row) : List (Option String) :=
  preferences.map fun p => p.lookup "Gender"

/-- `roomCaps`: `Number(r.Capacity)` for each room record. -/
def roomCapsOf (rooms : List Row) : List (Option ℚ) :=
  rooms.map fun r => jsNumField (r.lookup "Capacity")

/-- The `compatibility` sum: weighted L1 distance of two attribute vectors
over the first `n` category positions (the source loop runs
`k = 0 .. categories.length - 1`). -/
def compatibility (w a b : List ℚ) (n : ℕ) : ℚ :=
  ∑ k ∈ Finset.range n, w.getD k 0 * |a.getD k 0 - b.getD k 0|

/-- Sequence a list of possibly-NaN numbers: `some` of the values when
every entry is a number, otherwise `none`. -/
def allNums : List (Option ℚ) → Option (List ℚ)
  | [] => some []
  | none :: _ => none
  | some q :: rest => (allNums rest).map fun l => q :: l

/-- Objective coefficient of a pair variable.  The source accumulates
`weights[k] * |prefMatrix[i][k] - prefMatrix[j][k]|`; the weight list has
one entry per category position, so one NaN weight (a non-numeric
`Weighting` cell) makes the whole sum NaN, modelled `none`; with all
weights numeric the sum is the weighted L1 distance. -/
def objCoefOf (preferences key : List Row) (i j : ℕ) : Option ℚ :=
  (allNums (weightsOf key)).map fun w =>
    compatibility w ((prefMatrixOf preferences key).getD i [])
      ((prefMatrixOf preferences key).getD j []) (categoriesOf key).length

/-- The decision-variable key.  The source names the variable `x_i_j_r`;
the decimal encoding of the triple is injective, so the name is modelled by
the triple itself. -/
structure VKey where
  i : ℕ
  j : ℕ
  r : ℕ
  deriving DecidableEq, Repr

/-- `varNames` in generation order: room-major, then ascending `i`, then
ascending `j > i`, skipping mixed-gender pairs. -/
def varListCore (n : ℕ) (g : List (Option String)) (nr : ℕ) : List VKey :=
  (List.range nr).flatMap fun r =>
    (List.range n).flatMap fun i =>
      (List.range n).filterMap fun j =>
        if i < j ∧ g.getD i none = g.getD j none then some ⟨i, j, r⟩ else none

/-- `varNames` for the given preference and room tables. -/
def varListOf (preferences rooms : List Row) : List VKey :=
  varListCore preferences.length (genderListOf preferences) rooms.length

/-- A constraint name: `res_i` or `room_r`. -/
inductive ConName where
  | res : ℕ → ConName
  | room : ℕ → ConName
  deriving DecidableEq, Repr

/-- The GLPK bound kinds used by the source: `GLP_FX` and `GLP_UP`. -/
inductive BndsType where
  | fx
  | up
  deriving DecidableEq, Repr

/-- One linear constraint of the built model. -/
structure Constraint where
  name : ConName
  cvars : List (VKey × ℚ)
  btype : BndsType
  lb : ℚ
  ub : Option ℚ
  deriving DecidableEq, Repr

/-- The canonical variable name for the unordered pair of `i` and `j` in
room `r`: the source writes `i < j ? x_i_j_r : x_j_i_r`. -/
def canonKey (i j r : ℕ) : VKey :=
  if i < j then ⟨i, j, r⟩ else ⟨j, i, r⟩

/-- The per-resident constraint `res_i`: for every room and every `j ≠ i`,
the canonical pair name containing `i` is pushed with coefficient 1 when it
occurs among the generated variables; fixed bound (`GLP_FX`, ub = lb = 1). -/
def resConCore (n nr : ℕ) (varL : List VKey) (i : ℕ) : Constraint :=
  { name := .res i
    cvars := (List.range nr).flatMap fun r =>
      (List.range n).filterMap fun j =>
        if i = j then none
        else if canonKey i j r ∈ varL then some (canonKey i j r, (1 : ℚ)) else none
    btype := .fx
    lb := 1
    ub := some 1 }

/-- The room-capacity constraint `room_r`: every generated variable for
room `r` with coefficient 2, upper bounded (`GLP_UP`) by
`Number(rooms[r].Capacity)`, lb 0. -/
def roomConCore (n : ℕ) (varL : List VKey) (caps : List (Option ℚ)) (r : ℕ) : Constraint :=
  { name := .room r
    cvars := (List.range n).flatMap fun i =>
      (List.range n).filterMap fun j =>
        if i < j ∧ (⟨i, j, r⟩ : VKey) ∈ varL then some ((⟨i, j, r⟩ : VKey), (2 : ℚ)) else none
    btype := .up
    lb := 0
    ub := caps.getD r none }

/-- The `res_i` constraint for the given tables. -/
def resConOf (preferences rooms : List Row) (i : ℕ) : Constraint :=
  resConCore preferences.length rooms.length (varListOf preferences rooms) i

/-- The `room_r` constraint for the given tables. -/
def roomConOf (preferences rooms : List Row) (r : ℕ) : Constraint :=
  roomConCore preferences.length (varListOf preferences rooms) (roomCapsOf rooms) r

/-- `subjectTo`: all resident constraints in index order, then all room
constraints in index order. -/
def subjectToOf (preferences rooms : List Row) : List Constraint :=
  ((List.range preferences.length).map (resConOf preferences rooms))
    ++ ((List.range rooms.length).map (roomConOf preferences rooms))

/-- The built model handed to the solver. -/
structure LP where
  lpName : String
  minimize : Bool
  objName : String
  objVars : List (VKey × Option ℚ)
  subjectTo : List Constraint
  binaries : List VKey

/-- `lp`, as the source assembles it. -/
def buildLP (preferences rooms key : List Row) : LP :=
  { lpName := "roommate-matching"
    minimize := true
    objName := "obj"
    objVars := (varListOf preferences rooms).map fun v =>
      (v, objCoefOf preferences key v.i v.j)
    subjectTo := subjectToOf preferences rooms
    binaries := varListOf preferences rooms }

/-- The solver's value mapping, keyed by variable. -/
abbrev VarVals := List (VKey × ℚ)

/-- The inner `result` object of a GLPK response: a status code and the
possibly-absent `vars` mapping. -/
structure SolverInner where
  status : ℤ
  vars : Option VarVals

/-- A GLPK response: the possibly-absent `result` object. -/
structure SolverResult where
  result : Option SolverInner

/-- One decoded record:
`{a: nameList[i], b: nameList[j], room: rooms[r].Room || r}`. -/
structure Assignment where
  a : Option String
  b : Option String
  room : String
  deriving DecidableEq, Repr

/-- The value returned on success: accepted pairs plus unassigned names. -/
structure SolveOutput where
  assignments : List Assignment
  unassigned : List (Option String)
  deriving DecidableEq, Repr

/-- Decode one accepted variable `x_i_j_r`: names by index, and the room
label `rooms[r].Room || r` — the `Room` cell when truthy, else the decimal
index itself (the split components are strings in the source). -/
def decodeVar (nameList : List (Option String)) (rooms : List Row) (v : VKey) : Assignment :=
  { a := nameList.getD v.i none
    b := nameList.getD v.j none
    room :=
      match (rooms.getD v.r []).lookup "Room" with
      | some s => if s = "" then toString v.r else s
      | none => toString v.r }

/-- The decode loop `for (let v of varNames)`: whenever the solved value of
`v` is exactly 1, append the decoded record and add both resident indices
to the `assigned` set. -/
def decodeLoop (nameList : List (Option String)) (rooms : List Row) (vm : VarVals)
    (varL : List VKey) : List Assignment × Finset ℕ :=
  varL.foldl
    (fun acc v =>
      if vm.lookup v = some 1 then
        (acc.1 ++ [decodeVar nameList rooms v], insert v.j (insert v.i acc.2))
      else acc)
    ([], ∅)

/-- The unassigned loop: when the assigned set is smaller than the roster,
push every name whose index is not in the set, in ascending index order. -/
def unassignedOf (nameList : List (Option String)) (assigned : Finset ℕ) :
    List (Option String) :=
  if assigned.card < nameList.length then
    ((List.range nameList.length).filter fun i => decide (i ∉ assigned)).map
      fun i => nameList.getD i none
  else []

/-- Decoding a solver value mapping into the returned record. -/
def decodeSolution (preferences rooms : List Row) (vm : VarVals) : SolveOutput :=
  let dec := decodeLoop (nameListOf preferences) rooms vm (varListOf preferences rooms)
  { assignments := dec.1
    unassigned := unassignedOf (nameListOf preferences) dec.2 }

/-- The whole pipeline, the external GLPK solve passed in as an opaque
function from the built model to its response.  The source throws when the
response has no `result` or no `result.vars`; otherwise it decodes. -/
def solveRoommateAssignment (preferences rooms key : List Row)
    (solver : LP → SolverResult) : Except String SolveOutput :=
  match (solver (buildLP preferences rooms key)).result with
  | none => .error ("GLPK failed to find a solution. Status: " ++ "unknown")
  | some inner =>
    match inner.vars with
    | none =>
      .error ("GLPK failed to find a solution. Status: " ++ toString inner.status)
    | some vm => .ok (decodeSolution preferences rooms vm)

/-- Value of a constraint's linear form under a variable assignment. -/
def conSum (x : VKey → ℚ) (c : Constraint) : ℚ :=
  (c.cvars.map fun p => p.2 * x p.1).sum

/-- Satisfaction of one constraint: `GLP_FX` fixes the form to the bound,
`GLP_UP` bounds it above; a NaN bound is satisfied by nothing. -/
def satCon (x : VKey → ℚ) (c : Constraint) : Prop :=
  match c.btype with
  | .fx => conSum x c = c.lb
  | .up =>
    match c.ub with
    | some u => conSum x c ≤ u
    | none => False

/-- The normalization rule as the spec words it, amended at the two points
the code forces: a value on which `Number` succeeds is used directly (so
the empty string, which converts to 0, yields 0), and a missing field falls
back to 2 (faithful to the code as long as no ordinal label is the literal
string "undefined").  Used to compare `prefMatrixOf` against the spec. -/
def normCodeSpec (mapping : Option (List (String × ℕ))) (val : Option String) : ℚ :=
  match val with
  | none => 2
  | some s =>
    match jsStrToNum s with
    | some q => q
    | none =>
      match mapping.bind fun m => m.lookup s with
      | some sc => (sc : ℚ)
      | none => 2

/-- The key rows the spec keeps: those possessing both a `Category` value
and a `Weighting` value (present and non-empty), in their original row
order.  Used to compare `usedKeyRows` against the spec. -/
def keyRowsWithBoth (key : List Row) : List Row :=
  key.filter fun k =>
    decide ((k.lookup "Category").isSome ∧ (k.lookup "Category") ≠ some "" ∧
      (k.lookup "Weighting").isSome ∧ (k.lookup "Weighting") ≠ some "")

/-! ## Helper lemmas -/

theorem mem_varListCore {n nr : ℕ} {g : List (Option String)} {v : VKey} :
    v ∈ varListCore n g nr ↔
      v.i < v.j ∧ v.j < n ∧ v.r < nr ∧ g.getD v.i none = g.getD v.j none := by
  obtain ⟨i, j, r⟩ := v
  simp only [varListCore, List.mem_flatMap, List.mem_filterMap, List.mem_range,
    Option.ite_none_right_eq_some, Option.some.injEq, VKey.mk.injEq]
  constructor
  · rintro ⟨r', hr', i', hi', j', hj', ⟨hlt, hg⟩, rfl, rfl, rfl⟩
    exact ⟨hlt, hj', hr', hg⟩
  · rintro ⟨hlt, hj, hr, hg⟩
    exact ⟨r, hr, i, lt_trans hlt hj, j, hj, ⟨hlt, hg⟩, rfl, rfl, rfl⟩

theorem mem_varListOf {preferences rooms : List Row} {v : VKey} :
    v ∈ varListOf preferences rooms ↔
      v.i < v.j ∧ v.j < preferences.length ∧ v.r < rooms.length ∧
        (genderListOf preferences).getD v.i none = (genderListOf preferences).getD v.j none := by
  exact mem_varListCore

theorem mem_varInnerCore {n : ℕ} {g : List (Option String)} {r i : ℕ} {x : VKey}
    (hx : x ∈ (List.range n).filterMap fun j =>
        if i < j ∧ g.getD i none = g.getD j none then some (⟨i, j, r⟩ : VKey) else none) :
    x.i = i ∧ x.r = r := by
  simp only [List.mem_filterMap, List.mem_range, Option.ite_none_right_eq_some,
    Option.some.injEq] at hx
  obtain ⟨j, _, _, rfl⟩ := hx
  exact ⟨rfl, rfl⟩

theorem nodup_varListCore (n : ℕ) (g : List (Option String)) (nr : ℕ) :
    (varListCore n g nr).Nodup := by
  refine List.nodup_flatMap.2 ⟨fun r _ => ?_, ?_⟩
  · refine List.nodup_flatMap.2 ⟨fun i _ => ?_, ?_⟩
    · refine List.Nodup.filterMap ?_ (List.nodup_range n)
      intro a b c hca hcb
      rw [Option.mem_def, Option.ite_none_right_eq_some, Option.some.injEq] at hca hcb
      obtain ⟨_, rfl⟩ := hca
      obtain ⟨_, h⟩ := hcb
      exact ((VKey.mk.injEq _ _ _ _ _ _).mp h).2.1.symm
    · refine (List.nodup_range n).imp ?_
      intro i i' hne x hxi hxi'
      have h1 := (mem_varInnerCore hxi).1
      have h2 := (mem_varInnerCore hxi').1
      exact hne (h1 ▸ h2 ▸ rfl)
  · refine (List.nodup_range nr).imp ?_
    intro r r' hne x hxr hxr'
    simp only [List.mem_flatMap] at hxr hxr'
    obtain ⟨i, _, hxi⟩ := hxr
    obtain ⟨i', _, hxi'⟩ := hxr'
    have h1 := (mem_varInnerCore hxi).2
    have h2 := (mem_varInnerCore hxi').2
    exact hne (h1 ▸ h2 ▸ rfl)

theorem nodup_varListOf (preferences rooms : List Row) :
    (varListOf preferences rooms).Nodup :=
  nodup_varListCore _ _ _

theorem range_filter_eq (n i : ℕ) (h : i < n) :
    (List.range n).filter (fun j => j == i) = [i] := by
  induction n with
  | zero => omega
  | succ m ih =>
    rw [List.range_succ, List.filter_append]
    rcases Nat.lt_or_ge i m with hm | hm
    · rw [ih hm]
      have hne : m ≠ i := by omega
      simp [hne]
    · have him : i = m := by omega
      subst him
      have h1 : (List.range i).filter (fun j => j == i) = [] := by
        rw [List.filter_eq_nil_iff]
        intro a ha
        simp only [List.mem_range] at ha
        simp [Nat.ne_of_lt ha]
      simp [h1]

theorem getD_nonneg_of_forall {w : List ℚ} (hw : ∀ q ∈ w, 0 ≤ q) (k : ℕ) :
    0 ≤ w.getD k 0 := by
  by_cases hk : k < w.length
  · rw [List.getD_eq_getElem w 0 hk]
    exact hw _ (List.getElem_mem hk)
  · rw [List.getD_eq_default w 0 (by omega)]

/-! ## Claim theorems -/

/-- C6: every decision variable generated by the model builder is keyed by
a resident pair `(i, j)` with `i < j` whose gender labels are identical; no
variable is created for a pair whose gender labels differ. -/
theorem c6_vars_gender_matched (preferences rooms key : List Row) (v : VKey)
    (hv : v ∈ (buildLP preferences rooms key).binaries) :
    v.i < v.j ∧
      (genderListOf preferences).getD v.i none = (genderListOf preferences).getD v.j none := by
  have h := mem_varListOf.mp hv
  exact ⟨h.1, h.2.2.2⟩

theorem c6_witness :
    (⟨0, 1, 0⟩ : VKey) ∈ (buildLP
        [[("Name", "A"), ("Gender", "M")], [("Name", "B"), ("Gender", "M")]]
        [[("Room", "R1"), ("Capacity", "2")]] []).binaries ∧
      ((⟨0, 1, 0⟩ : VKey).i < (⟨0, 1, 0⟩ : VKey).j ∧
        (genderListOf [[("Name", "A"), ("Gender", "M")], [("Name", "B"), ("Gender", "M")]]).getD
            (⟨0, 1, 0⟩ : VKey).i none =
          (genderListOf [[("Name", "A"), ("Gender", "M")],
              [("Name", "B"), ("Gender", "M")]]).getD (⟨0, 1, 0⟩ : VKey).j none) :=
  ⟨by decide,
   c6_vars_gender_matched [[("Name", "A"), ("Gender", "M")], [("Name", "B"), ("Gender", "M")]]
     [[("Room", "R1"), ("Capacity", "2")]] [] ⟨0, 1, 0⟩ (by decide)⟩

/-- C7: with every weight non-negative, the compatibility cost is
non-negative, and it is zero exactly when the two attribute vectors agree
at every category position carrying a positive weight. -/
theorem c7_compatibility_nonneg_zero_iff (w a b : List ℚ) (n : ℕ)
    (hw : ∀ q ∈ w, 0 ≤ q) :
    0 ≤ compatibility w a b n ∧
      (compatibility w a b n = 0 ↔
        ∀ k, k < n → 0 < w.getD k 0 → a.getD k 0 = b.getD k 0) := by
  have hterm : ∀ k ∈ Finset.range n, 0 ≤ w.getD k 0 * |a.getD k 0 - b.getD k 0| :=
    fun k _ => mul_nonneg (getD_nonneg_of_forall hw k) (abs_nonneg _)
  constructor
  · exact Finset.sum_nonneg hterm
  · rw [compatibility, Finset.sum_eq_zero_iff_of_nonneg hterm]
    constructor
    · intro h k hk hwk
      have hk0 := h k (Finset.mem_range.2 hk)
      rcases mul_eq_zero.1 hk0 with h0 | h0
      · exact absurd h0 (ne_of_gt hwk)
      · have := abs_eq_zero.1 h0
        linarith
    · intro h k hk
      rcases eq_or_lt_of_le (getD_nonneg_of_forall hw k) with h0 | h0
      · rw [← h0, zero_mul]
      · have hab := h k (Finset.mem_range.1 hk) h0
        rw [hab, sub_self, abs_zero, mul_zero]

theorem c7_witness :
    (∀ q ∈ ([1, 0] : List ℚ), 0 ≤ q) ∧
      (0 ≤ compatibility [1, 0] [1, 3] [1, 4] 2 ∧
        (compatibility [1, 0] [1, 3] [1, 4] 2 = 0 ↔
          ∀ k, k < 2 → 0 < ([1, 0] : List ℚ).getD k 0 →
            ([1, 3] : List ℚ).getD k 0 = ([1, 4] : List ℚ).getD k 0)) :=
  ⟨by norm_num, c7_compatibility_nonneg_zero_iff [1, 0] [1, 3] [1, 4] 2 (by norm_num)⟩

/-- C10: decoding an accepted variable for room index `r` emits the room
record's `Room` value when present and truthy, and otherwise the room index
itself (as its decimal string, the form the split components take in the
source), so a rooms table without a `Room` column yields indices as room
labels rather than an error. -/
theorem c10_room_label_fallback (nameList : List (Option String)) (rooms : List Row)
    (v : VKey) :
    (∀ s, (rooms.getD v.r []).lookup "Room" = some s → s ≠ "" →
        (decodeVar nameList rooms v).room = s) ∧
      (((rooms.getD v.r []).lookup "Room" = none ∨
          (rooms.getD v.r []).lookup "Room" = some "") →
        (decodeVar nameList rooms v).room = toString v.r) := by
  constructor
  · intro s hs hne
    simp only [List.getD_eq_getElem?_getD] at hs
    simp [decodeVar, hs, hne]
  · rintro (h | h) <;> simp only [List.getD_eq_getElem?_getD] at h <;>
      simp [decodeVar, h]

theorem c10_witness :
    (decodeVar [some "A", some "B"] [[("Room", "R1"), ("Capacity", "2")]]
        ⟨0, 1, 0⟩).room = "R1" ∧
      (decodeVar [some "A", some "B"] [[("Label", "R1"), ("Capacity", "2")]]
        ⟨0, 1, 0⟩).room = "0" :=
  ⟨(c10_room_label_fallback [some "A", some "B"] [[("Room", "R1"), ("Capacity", "2")]]
      ⟨0, 1, 0⟩).1 "R1" (by decide) (by decide),
   (c10_room_label_fallback [some "A", some "B"] [[("Label", "R1"), ("Capacity", "2")]]
      ⟨0, 1, 0⟩).2 (Or.inl (by decide))⟩

/-- C1: whenever the solver's response reports failure — no `result`
object or no `result.vars` mapping, the shape the source treats as solver
infeasibility or failure — `solveRoommateAssignment` ends in a single
thrown error for the whole batch and produces no result record. -/
theorem c1_solver_failure_terminal (preferences rooms key : List Row)
    (solver : LP → SolverResult)
    (h : (solver (buildLP preferences rooms key)).result = none ∨
        ∃ inner, (solver (buildLP preferences rooms key)).result = some inner ∧
          inner.vars = none) :
    ∃ msg, solveRoommateAssignment preferences rooms key solver = Except.error msg := by
  unfold solveRoommateAssignment
  rcases h with h | ⟨inner, h, hv⟩
  · rw [h]
    exact ⟨_, rfl⟩
  · refine ⟨"GLPK failed to find a solution. Status: " ++ toString inner.status, ?_⟩
    rw [h]
    show (match inner.vars with
      | none =>
        Except.error ("GLPK failed to find a solution. Status: " ++ toString inner.status)
      | some vm => Except.ok (decodeSolution preferences rooms vm)) = _
    rw [hv]

theorem c1_witness :
    (((fun _ : LP => (⟨none⟩ : SolverResult)) (buildLP
          [[("Name", "A"), ("Gender", "M")], [("Name", "B"), ("Gender", "M")],
            [("Name", "C"), ("Gender", "M")]]
          [[("Room", "R1"), ("Capacity", "2")]]
          [[("Category", "clean"), ("Weighting", "1")]])).result = none ∨
        ∃ inner, ((fun _ : LP => (⟨none⟩ : SolverResult)) (buildLP
            [[("Name", "A"), ("Gender", "M")], [("Name", "B"), ("Gender", "M")],
              [("Name", "C"), ("Gender", "M")]]
            [[("Room", "R1"), ("Capacity", "2")]]
            [[("Category", "clean"), ("Weighting", "1")]])).result = some inner ∧
          inner.vars = none) ∧
      ∃ msg, solveRoommateAssignment
          [[("Name", "A"), ("Gender", "M")], [("Name", "B"), ("Gender", "M")],
            [("Name", "C"), ("Gender", "M")]]
          [[("Room", "R1"), ("Capacity", "2")]]
          [[("Category", "clean"), ("Weighting", "1")]]
          (fun _ => ⟨none⟩) = Except.error msg :=
  ⟨Or.inl rfl, c1_solver_failure_terminal _ _ _ _ (Or.inl rfl)⟩

/-- C2 counterexample: with category "clean" of weight 1 and a resident
whose "clean" cell is the empty string, the normalized code is 0 — the
empty string converts to the number 0 — not the neutral 2 the claim
requires for an empty (non-numeric, unmapped) value. -/
theorem c2_empty_string_yields_zero :
    prefMatrixOf [[("Name", "A"), ("Gender", "M"), ("clean", "")]]
        [[("Category", "clean"), ("Weighting", "1")]] = [[0]] ∧ (0 : ℚ) ≠ 2 := by
  exact ⟨by decide, by norm_num⟩

theorem normEntry_eq_spec (mapping : Option (List (String × ℕ))) (val : Option String)
    (hund : mapping.bind (fun m => m.lookup "undefined") = none) :
    normEntry mapping val = normCodeSpec mapping val := by
  cases val with
  | none => simp [normEntry, normCodeSpec, jsNumField, hund]
  | some s => rfl

/-- C2 (amended): each normalized attribute code follows the case
analysis: a value on which `Number` succeeds is used directly — in
particular the empty string converts to the number 0 and yields 0, not 2 —
otherwise a literal present in the category's ordinal mapping yields its
code, and otherwise the neutral code 2 is used; a missing field also
yields 2 provided no ordinal label is the literal string "undefined" (the
property key a missing value is looked up under). -/
theorem c2_prefMatrix_normalization (preferences key : List Row)
    (hund : ∀ cat ∈ categoriesOf key,
      (mappingOf key cat).bind (fun m => m.lookup "undefined") = none) :
    prefMatrixOf preferences key = preferences.map fun p =>
      (categoriesOf key).map fun cat => normCodeSpec (mappingOf key cat) (p.lookup cat) := by
  unfold prefMatrixOf
  refine List.map_congr_left fun p _ => ?_
  exact List.map_congr_left fun cat hcat => normEntry_eq_spec _ _ (hund cat hcat)

theorem c2_witness :
    (∀ cat ∈ categoriesOf [[("Category", "clean"), ("Weighting", "1"), ("1", "Very")]],
        (mappingOf [[("Category", "clean"), ("Weighting", "1"), ("1", "Very")]] cat).bind
          (fun m => m.lookup "undefined") = none) ∧
      prefMatrixOf [[("Name", "A"), ("Gender", "M"), ("clean", "Very")]]
          [[("Category", "clean"), ("Weighting", "1"), ("1", "Very")]] =
        [[("Name", "A"), ("Gender", "M"), ("clean", "Very")]].map fun p =>
          (categoriesOf [[("Category", "clean"), ("Weighting", "1"), ("1", "Very")]]).map
            fun cat => normCodeSpec
              (mappingOf [[("Category", "clean"), ("Weighting", "1"), ("1", "Very")]] cat)
              (p.lookup cat) :=
  ⟨by decide, c2_prefMatrix_normalization _ _ (by decide)⟩

set_option linter.unnecessarySeqFocus false in
theorem usedKeyRows_eq_spec (key : List Row) :
    usedKeyRows key = keyRowsWithBoth key := by
  unfold usedKeyRows keyRowsWithBoth
  refine List.filter_congr fun k _ => ?_
  rw [Bool.eq_iff_iff]
  cases k.lookup "Category" <;> cases k.lookup "Weighting" <;>
    simp [truthy] <;> tauto

/-- C9: exactly the key rows possessing both a `Category` value and a
`Weighting` value (present, non-empty) are used to derive the category
list and the weight vector, in their original row order; every row lacking
either field is ignored. -/
theorem c9_key_rows_used (key : List Row) :
    categoriesOf key = (keyRowsWithBoth key).map (fun k => (k.lookup "Category").getD "") ∧
      weightsOf key =
        (keyRowsWithBoth key).map (fun k => (k.lookup "Weighting").bind parseFloatQ) ∧
      (keyRowsWithBoth key).Sublist key ∧
      ∀ k, k ∈ keyRowsWithBoth key ↔
        k ∈ key ∧ (k.lookup "Category").isSome ∧ (k.lookup "Category") ≠ some "" ∧
          (k.lookup "Weighting").isSome ∧ (k.lookup "Weighting") ≠ some "" := by
  refine ⟨?_, ?_, List.filter_sublist key, fun k => ?_⟩
  · rw [categoriesOf, usedKeyRows_eq_spec]
  · rw [weightsOf, usedKeyRows_eq_spec]
  · simp [keyRowsWithBoth, List.mem_filter, and_assoc]

theorem decodeLoop_foldl_fst (nameList : List (Option String)) (rooms : List Row)
    (vm : VarVals) (varL : List VKey) (acc : List Assignment × Finset ℕ) :
    (varL.foldl
        (fun acc v =>
          if vm.lookup v = some 1 then
            (acc.1 ++ [decodeVar nameList rooms v], insert v.j (insert v.i acc.2))
          else acc)
        acc).1 =
      acc.1 ++ ((varL.filter fun v => decide (vm.lookup v = some 1)).map
        (decodeVar nameList rooms)) := by
  induction varL generalizing acc with
  | nil => simp
  | cons v rest ih =>
    rw [List.foldl_cons]
    by_cases h : vm.lookup v = some 1
    · rw [if_pos h, ih]
      simp [List.filter_cons, h]
    · rw [if_neg h, ih]
      simp [List.filter_cons, h]

theorem decodeLoop_fst (nameList : List (Option String)) (rooms : List Row)
    (vm : VarVals) (varL : List VKey) :
    (decodeLoop nameList rooms vm varL).1 =
      (varL.filter fun v => decide (vm.lookup v = some 1)).map
        (decodeVar nameList rooms) := by
  unfold decodeLoop
  rw [decodeLoop_foldl_fst]
  simp

theorem decodeLoop_foldl_snd_mem (nameList : List (Option String)) (rooms : List Row)
    (vm : VarVals) (varL : List VKey) (acc : List Assignment × Finset ℕ) (idx : ℕ) :
    idx ∈ (varL.foldl
        (fun acc v =>
          if vm.lookup v = some 1 then
            (acc.1 ++ [decodeVar nameList rooms v], insert v.j (insert v.i acc.2))
          else acc)
        acc).2 ↔
      idx ∈ acc.2 ∨ ∃ v ∈ varL, vm.lookup v = some 1 ∧ (v.i = idx ∨ v.j = idx) := by
  induction varL generalizing acc with
  | nil => simp
  | cons v rest ih =>
    rw [List.foldl_cons]
    by_cases h : vm.lookup v = some 1
    · rw [if_pos h, ih]
      constructor
      · rintro (hmem | ⟨w, hw, hlw, hcw⟩)
        · rw [Finset.mem_insert, Finset.mem_insert] at hmem
          rcases hmem with h1 | h1 | h1
          · exact Or.inr ⟨v, List.mem_cons_self v rest, h, Or.inr h1.symm⟩
          · exact Or.inr ⟨v, List.mem_cons_self v rest, h, Or.inl h1.symm⟩
          · exact Or.inl h1
        · exact Or.inr ⟨w, List.mem_cons_of_mem v hw, hlw, hcw⟩
      · rintro (hmem | ⟨w, hw, hlw, hcw⟩)
        · exact Or.inl (Finset.mem_insert_of_mem (Finset.mem_insert_of_mem hmem))
        · rcases List.mem_cons.mp hw with rfl | hw'
          · refine Or.inl ?_
            rcases hcw with h1 | h1
            · rw [← h1]
              exact Finset.mem_insert_of_mem (Finset.mem_insert_self _ _)
            · rw [← h1]
              exact Finset.mem_insert_self _ _
          · exact Or.inr ⟨w, hw', hlw, hcw⟩
    · rw [if_neg h, ih]
      constructor
      · rintro (hmem | ⟨w, hw, hlw, hcw⟩)
        · exact Or.inl hmem
        · exact Or.inr ⟨w, List.mem_cons_of_mem v hw, hlw, hcw⟩
      · rintro (hmem | ⟨w, hw, hlw, hcw⟩)
        · exact Or.inl hmem
        · rcases List.mem_cons.mp hw with rfl | hw'
          · exact absurd hlw h
          · exact Or.inr ⟨w, hw', hlw, hcw⟩

theorem decodeLoop_snd_mem (nameList : List (Option String)) (rooms : List Row)
    (vm : VarVals) (varL : List VKey) (idx : ℕ) :
    idx ∈ (decodeLoop nameList rooms vm varL).2 ↔
      ∃ v ∈ varL, vm.lookup v = some 1 ∧ (v.i = idx ∨ v.j = idx) := by
  unfold decodeLoop
  rw [decodeLoop_foldl_snd_mem]
  simp

theorem decodeLoop_snd_not_mem (nameList : List (Option String)) (rooms : List Row)
    (vm : VarVals) (varL : List VKey) (idx : ℕ) :
    idx ∉ (decodeLoop nameList rooms vm varL).2 ↔
      ∀ v ∈ varL, vm.lookup v = some 1 → v.i ≠ idx ∧ v.j ≠ idx := by
  rw [decodeLoop_snd_mem]
  push_neg
  rfl

theorem length_nameListOf (preferences : List Row) :
    (nameListOf preferences).length = preferences.length := by
  simp [nameListOf]

theorem lookup_pair_swap {β : Type} (a b : VKey) (x y : β) (hab : a ≠ b) (v : VKey) :
    ([(a, x), (b, y)] : List (VKey × β)).lookup v =
      ([(b, y), (a, x)] : List (VKey × β)).lookup v := by
  by_cases ha : v = a
  · subst ha
    have h2 : (v == b) = false := by simpa using hab
    simp [List.lookup, h2]
  · by_cases hb : v = b
    · subst hb
      have h1 : (v == a) = false := by simpa using fun h => ha h
      simp [List.lookup, h1]
    · have h1 : (v == a) = false := by simpa using ha
      have h2 : (v == b) = false := by simpa using hb
      simp [List.lookup, h1, h2]

/-- C3: the decoder emits accepted assignments exactly in the order the
decision variables were generated (room-major, then ascending resident
index `i`, then ascending `j`), and the emitted list depends only on the
value lookups of the solver's mapping, not on the order of its keys; hence
identical inputs with identical solver outputs give identical order. -/
theorem c3_decode_generation_order (preferences rooms : List Row) (vm1 vm2 : VarVals)
    (h : ∀ v, vm1.lookup v = vm2.lookup v) :
    (decodeSolution preferences rooms vm1).assignments =
        (decodeSolution preferences rooms vm2).assignments ∧
      (decodeSolution preferences rooms vm1).assignments =
        ((varListOf preferences rooms).filter fun v => decide (vm1.lookup v = some 1)).map
          (decodeVar (nameListOf preferences) rooms) := by
  have h1 : (decodeSolution preferences rooms vm1).assignments =
      (decodeLoop (nameListOf preferences) rooms vm1 (varListOf preferences rooms)).1 := rfl
  have h2 : (decodeSolution preferences rooms vm2).assignments =
      (decodeLoop (nameListOf preferences) rooms vm2 (varListOf preferences rooms)).1 := rfl
  constructor
  · rw [h1, h2, decodeLoop_fst, decodeLoop_fst]
    congr 1
    exact List.filter_congr fun v _ => by rw [h v]
  · rw [h1]
    exact decodeLoop_fst _ _ _ _

theorem c3_witness :
    (∀ v : VKey, (([(⟨0, 1, 0⟩, (1 : ℚ)), (⟨0, 1, 1⟩, 0)] : VarVals).lookup v) =
        (([(⟨0, 1, 1⟩, (0 : ℚ)), (⟨0, 1, 0⟩, 1)] : VarVals).lookup v)) ∧
      ((decodeSolution [[("Name", "A"), ("Gender", "M")], [("Name", "B"), ("Gender", "M")]]
          [[("Room", "R1"), ("Capacity", "2")], [("Room", "R2"), ("Capacity", "2")]]
          [(⟨0, 1, 0⟩, 1), (⟨0, 1, 1⟩, 0)]).assignments =
        (decodeSolution [[("Name", "A"), ("Gender", "M")], [("Name", "B"), ("Gender", "M")]]
          [[("Room", "R1"), ("Capacity", "2")], [("Room", "R2"), ("Capacity", "2")]]
          [(⟨0, 1, 1⟩, 0), (⟨0, 1, 0⟩, 1)]).assignments ∧
      (decodeSolution [[("Name", "A"), ("Gender", "M")], [("Name", "B"), ("Gender", "M")]]
          [[("Room", "R1"), ("Capacity", "2")], [("Room", "R2"), ("Capacity", "2")]]
          [(⟨0, 1, 0⟩, 1), (⟨0, 1, 1⟩, 0)]).assignments =
        ((varListOf [[("Name", "A"), ("Gender", "M")], [("Name", "B"), ("Gender", "M")]]
              [[("Room", "R1"), ("Capacity", "2")], [("Room", "R2"), ("Capacity", "2")]]).filter
            fun v => decide ((([(⟨0, 1, 0⟩, (1 : ℚ)), (⟨0, 1, 1⟩, 0)] : VarVals).lookup v)
              = some 1)).map
          (decodeVar (nameListOf [[("Name", "A"), ("Gender", "M")],
            [("Name", "B"), ("Gender", "M")]])
            [[("Room", "R1"), ("Capacity", "2")], [("Room", "R2"), ("Capacity", "2")]])) :=
  ⟨lookup_pair_swap ⟨0, 1, 0⟩ ⟨0, 1, 1⟩ 1 0 (by decide),
   c3_decode_generation_order
    [[("Name", "A"), ("Gender", "M")], [("Name", "B"), ("Gender", "M")]]
    [[("Room", "R1"), ("Capacity", "2")], [("Room", "R2"), ("Capacity", "2")]]
    [(⟨0, 1, 0⟩, 1), (⟨0, 1, 1⟩, 0)] [(⟨0, 1, 1⟩, 0), (⟨0, 1, 0⟩, 1)]
    (lookup_pair_swap ⟨0, 1, 0⟩ ⟨0, 1, 1⟩ 1 0 (by decide))⟩

/-- C8: on solver success, the returned unassigned list is exactly the
names of the residents whose index appears in no accepted decision
variable (no generated variable with solved value 1), in ascending
resident-index order; every resident in some accepted variable is
excluded. -/
theorem c8_unassigned_exact (preferences rooms key : List Row)
    (solver : LP → SolverResult) (st : ℤ) (vm : VarVals)
    (hres : solver (buildLP preferences rooms key) = ⟨some ⟨st, some vm⟩⟩) :
    ∃ out, solveRoommateAssignment preferences rooms key solver = Except.ok out ∧
      out.unassigned =
        ((List.range preferences.length).filter fun idx =>
            decide (∀ v ∈ varListOf preferences rooms,
              vm.lookup v = some 1 → v.i ≠ idx ∧ v.j ≠ idx)).map
          fun idx => (nameListOf preferences).getD idx none := by
  refine ⟨decodeSolution preferences rooms vm, ?_, ?_⟩
  · unfold solveRoommateAssignment
    rw [hres]
  · have hout : (decodeSolution preferences rooms vm).unassigned =
        unassignedOf (nameListOf preferences)
          (decodeLoop (nameListOf preferences) rooms vm (varListOf preferences rooms)).2 := rfl
    rw [hout]
    unfold unassignedOf
    rw [length_nameListOf]
    by_cases hcard :
        (decodeLoop (nameListOf preferences) rooms vm (varListOf preferences rooms)).2.card <
          preferences.length
    · rw [if_pos hcard]
      congr 1
      refine List.filter_congr fun idx _ => ?_
      rw [decide_eq_decide]
      exact decodeLoop_snd_not_mem _ _ _ _ _
    · rw [if_neg hcard]
      symm
      rw [List.map_eq_nil_iff, List.filter_eq_nil_iff]
      intro idx hidx
      have hsub : (decodeLoop (nameListOf preferences) rooms vm
          (varListOf preferences rooms)).2 ⊆ Finset.range preferences.length := by
        intro t ht
        rw [decodeLoop_snd_mem] at ht
        obtain ⟨v, hv, _, hcase⟩ := ht
        have hm := mem_varListOf.mp hv
        rw [Finset.mem_range]
        rcases hcase with rfl | rfl
        · omega
        · omega
      have hall : (decodeLoop (nameListOf preferences) rooms vm
          (varListOf preferences rooms)).2 = Finset.range preferences.length :=
        Finset.eq_of_subset_of_card_le hsub (by simpa using le_of_not_lt hcard)
      have hin : idx ∈ (decodeLoop (nameListOf preferences) rooms vm
          (varListOf preferences rooms)).2 := by
        rw [hall, Finset.mem_range]
        exact List.mem_range.mp hidx
      rw [decodeLoop_snd_mem] at hin
      obtain ⟨v, hv, hlook, hcase⟩ := hin
      simp only [decide_eq_true_eq]
      intro hforall
      have := hforall v hv hlook
      tauto

theorem c8_witness :
    ((fun _ : LP => (⟨some ⟨5, some [(⟨0, 1, 0⟩, 1)]⟩⟩ : SolverResult)) (buildLP
        [[("Name", "A"), ("Gender", "M")], [("Name", "B"), ("Gender", "M")],
          [("Name", "C"), ("Gender", "F")]]
        [[("Room", "R1"), ("Capacity", "2")]]
        [[("Category", "clean"), ("Weighting", "1")]]) =
      (⟨some ⟨5, some [(⟨0, 1, 0⟩, 1)]⟩⟩ : SolverResult)) ∧
      ∃ out, solveRoommateAssignment
          [[("Name", "A"), ("Gender", "M")], [("Name", "B"), ("Gender", "M")],
            [("Name", "C"), ("Gender", "F")]]
          [[("Room", "R1"), ("Capacity", "2")]]
          [[("Category", "clean"), ("Weighting", "1")]]
          (fun _ => ⟨some ⟨5, some [(⟨0, 1, 0⟩, 1)]⟩⟩) = Except.ok out ∧
        out.unassigned =
          ((List.range ([[("Name", "A"), ("Gender", "M")], [("Name", "B"), ("Gender", "M")],
              [("Name", "C"), ("Gender", "F")]] : List Row).length).filter fun idx =>
              decide (∀ v ∈ varListOf
                  [[("Name", "A"), ("Gender", "M")], [("Name", "B"), ("Gender", "M")],
                    [("Name", "C"), ("Gender", "F")]]
                  [[("Room", "R1"), ("Capacity", "2")]],
                ([(⟨0, 1, 0⟩, (1 : ℚ))] : VarVals).lookup v = some 1 →
                  v.i ≠ idx ∧ v.j ≠ idx)).map
            fun idx => (nameListOf [[("Name", "A"), ("Gender", "M")],
                [("Name", "B"), ("Gender", "M")], [("Name", "C"), ("Gender", "F")]]).getD
              idx none :=
  ⟨rfl,
   c8_unassigned_exact
     [[("Name", "A"), ("Gender", "M")], [("Name", "B"), ("Gender", "M")],
       [("Name", "C"), ("Gender", "F")]]
     [[("Room", "R1"), ("Capacity", "2")]]
     [[("Category", "clean"), ("Weighting", "1")]]
     (fun _ => ⟨some ⟨5, some [(⟨0, 1, 0⟩, 1)]⟩⟩) 5 [(⟨0, 1, 0⟩, 1)] rfl⟩

theorem canonKey_r (i j r : ℕ) : (canonKey i j r).r = r := by
  unfold canonKey
  split <;> rfl

theorem canonKey_inj {i a b r r' : ℕ} (h : canonKey i a r = canonKey i b r') :
    a = b ∧ r = r' := by
  unfold canonKey at h
  split_ifs at h <;> (rw [VKey.mk.injEq] at h; omega)

theorem mem_resConOf_cvars {preferences rooms : List Row} {i : ℕ} {p : VKey × ℚ} :
    p ∈ (resConOf preferences rooms i).cvars ↔
      p.2 = 1 ∧ p.1 ∈ varListOf preferences rooms ∧ (p.1.i = i ∨ p.1.j = i) := by
  obtain ⟨v, q⟩ := p
  simp only [resConOf, resConCore, List.mem_flatMap, List.mem_filterMap, List.mem_range]
  constructor
  · rintro ⟨r, hr, j, hj, h⟩
    by_cases hij : i = j
    · rw [if_pos hij] at h
      exact absurd h (by simp)
    · rw [if_neg hij, Option.ite_none_right_eq_some, Option.some.injEq] at h
      obtain ⟨hmem, heq⟩ := h
      rw [Prod.mk.injEq] at heq
      obtain ⟨hkey, hq⟩ := heq
      subst hkey
      refine ⟨hq.symm, hmem, ?_⟩
      unfold canonKey
      by_cases hlt : i < j
      · rw [if_pos hlt]
        exact Or.inl rfl
      · rw [if_neg hlt]
        exact Or.inr rfl
  · rintro ⟨hq, hv, hcase⟩
    have hm := mem_varListOf.mp hv
    rcases hcase with hci | hcj
    · refine ⟨v.r, hm.2.2.1, v.j, hm.2.1, ?_⟩
      have hne : ¬ i = v.j := by omega
      rw [if_neg hne]
      have hck : canonKey i v.j v.r = v := by
        unfold canonKey
        rw [if_pos (by omega : i < v.j), ← hci]
      rw [hck, if_pos hv, hq]
    · refine ⟨v.r, hm.2.2.1, v.i, by omega, ?_⟩
      have hne : ¬ i = v.i := by omega
      rw [if_neg hne]
      have hck : canonKey i v.i v.r = v := by
        unfold canonKey
        rw [if_neg (by omega : ¬ i < v.i), ← hcj]
      rw [hck, if_pos hv, hq]

theorem mem_roomConOf_cvars {preferences rooms : List Row} {r : ℕ} {p : VKey × ℚ} :
    p ∈ (roomConOf preferences rooms r).cvars ↔
      p.2 = 2 ∧ p.1 ∈ varListOf preferences rooms ∧ p.1.r = r := by
  obtain ⟨v, q⟩ := p
  simp only [roomConOf, roomConCore, List.mem_flatMap, List.mem_filterMap, List.mem_range,
    Option.ite_none_right_eq_some, Option.some.injEq, Prod.mk.injEq]
  constructor
  · rintro ⟨a, _, b, _, ⟨hlt, hmem⟩, hkey, hq⟩
    subst hkey
    exact ⟨hq.symm, hmem, rfl⟩
  · rintro ⟨hq, hv, hvr⟩
    subst hvr
    have hm := mem_varListOf.mp hv
    refine ⟨v.i, by omega, v.j, hm.2.1, ⟨hm.1, hv⟩, rfl, hq.symm⟩

theorem resConOf_keys_eq (preferences rooms : List Row) (i : ℕ) :
    (resConOf preferences rooms i).cvars.map Prod.fst =
      (List.range rooms.length).flatMap fun r =>
        (List.range preferences.length).filterMap fun j =>
          if i = j then none
          else if canonKey i j r ∈ varListOf preferences rooms then some (canonKey i j r)
          else none := by
  simp only [resConOf, resConCore, List.map_flatMap, List.map_filterMap]
  refine List.flatMap_congr ?_
  intro r _
  refine congrArg (fun f => List.filterMap f (List.range preferences.length))
    (funext fun j => ?_)
  by_cases hij : i = j
  · simp [hij]
  · by_cases hmem : canonKey i j r ∈ varListOf preferences rooms <;> simp [hij, hmem]

theorem nodup_resConOf_keys (preferences rooms : List Row) (i : ℕ) :
    ((resConOf preferences rooms i).cvars.map Prod.fst).Nodup := by
  rw [resConOf_keys_eq]
  refine List.nodup_flatMap.2 ⟨fun r _ => ?_, ?_⟩
  · refine List.Nodup.filterMap ?_ (List.nodup_range preferences.length)
    intro a b c hca hcb
    rw [Option.mem_def] at hca hcb
    by_cases ha : i = a
    · rw [if_pos ha] at hca
      exact absurd hca (by simp)
    · by_cases hb : i = b
      · rw [if_pos hb] at hcb
        exact absurd hcb (by simp)
      · rw [if_neg ha, Option.ite_none_right_eq_some, Option.some.injEq] at hca
        rw [if_neg hb, Option.ite_none_right_eq_some, Option.some.injEq] at hcb
        exact (canonKey_inj (hca.2.trans hcb.2.symm)).1
  · refine (List.nodup_range rooms.length).imp ?_
    intro r r' hne c hcr hcr'
    simp only [List.mem_filterMap, List.mem_range] at hcr hcr'
    obtain ⟨a, _, hca⟩ := hcr
    obtain ⟨b, _, hcb⟩ := hcr'
    by_cases ha : i = a
    · rw [if_pos ha] at hca
      exact absurd hca (by simp)
    · by_cases hb : i = b
      · rw [if_pos hb] at hcb
        exact absurd hcb (by simp)
      · rw [if_neg ha, Option.ite_none_right_eq_some, Option.some.injEq] at hca
        rw [if_neg hb, Option.ite_none_right_eq_some, Option.some.injEq] at hcb
        have h1 := canonKey_r i a r
        have h2 := canonKey_r i b r'
        rw [hca.2] at h1
        rw [hcb.2] at h2
        exact hne (h1 ▸ h2 ▸ rfl)

theorem roomConOf_keys_eq (preferences rooms : List Row) (r : ℕ) :
    (roomConOf preferences rooms r).cvars.map Prod.fst =
      (List.range preferences.length).flatMap fun a =>
        (List.range preferences.length).filterMap fun b =>
          if a < b ∧ (⟨a, b, r⟩ : VKey) ∈ varListOf preferences rooms then
            some (⟨a, b, r⟩ : VKey)
          else none := by
  simp only [roomConOf, roomConCore, List.map_flatMap, List.map_filterMap]
  refine List.flatMap_congr ?_
  intro a _
  refine congrArg (fun f => List.filterMap f (List.range preferences.length))
    (funext fun b => ?_)
  by_cases h : a < b ∧ (⟨a, b, r⟩ : VKey) ∈ varListOf preferences rooms <;> simp [h]

theorem nodup_roomConOf_keys (preferences rooms : List Row) (r : ℕ) :
    ((roomConOf preferences rooms r).cvars.map Prod.fst).Nodup := by
  rw [roomConOf_keys_eq]
  refine List.nodup_flatMap.2 ⟨fun a _ => ?_, ?_⟩
  · refine List.Nodup.filterMap ?_ (List.nodup_range preferences.length)
    intro b b' c hcb hcb'
    rw [Option.mem_def, Option.ite_none_right_eq_some, Option.some.injEq] at hcb hcb'
    have h := hcb.2.trans hcb'.2.symm
    rw [VKey.mk.injEq] at h
    omega
  · refine (List.nodup_range preferences.length).imp ?_
    intro a a' hne c hca hca'
    simp only [List.mem_filterMap, List.mem_range, Option.ite_none_right_eq_some,
      Option.some.injEq] at hca hca'
    obtain ⟨b, _, _, hkb⟩ := hca
    obtain ⟨b', _, _, hkb'⟩ := hca'
    have h := hkb.trans hkb'.symm
    rw [VKey.mk.injEq] at h
    omega

theorem mem_roomConOf_keys {preferences rooms : List Row} {r : ℕ} {v : VKey} :
    v ∈ (roomConOf preferences rooms r).cvars.map Prod.fst ↔
      v ∈ varListOf preferences rooms ∧ v.r = r := by
  rw [List.mem_map]
  constructor
  · rintro ⟨p, hp, rfl⟩
    have h := mem_roomConOf_cvars.mp hp
    exact ⟨h.2.1, h.2.2⟩
  · rintro ⟨hv, hvr⟩
    exact ⟨(v, 2), mem_roomConOf_cvars.mpr ⟨rfl, hv, hvr⟩, rfl⟩

theorem subjectTo_filter_res (preferences rooms : List Row) (i : ℕ)
    (hi : i < preferences.length) :
    (subjectToOf preferences rooms).filter (fun c => c.name == ConName.res i) =
      [resConOf preferences rooms i] := by
  unfold subjectToOf
  rw [List.filter_append]
  have h1 : ((List.range preferences.length).map (resConOf preferences rooms)).filter
      (fun c => c.name == ConName.res i) = [resConOf preferences rooms i] := by
    rw [List.filter_map]
    have hcong : ∀ j ∈ List.range preferences.length,
        ((fun c => c.name == ConName.res i) ∘ resConOf preferences rooms) j = (j == i) := by
      intro j _
      rw [Function.comp_apply, Bool.eq_iff_iff]
      have hn : (resConOf preferences rooms j).name = ConName.res j := rfl
      rw [hn]
      simp
    rw [List.filter_congr hcong, range_filter_eq _ _ hi, List.map_cons, List.map_nil]
  have h2 : ((List.range rooms.length).map (roomConOf preferences rooms)).filter
      (fun c => c.name == ConName.res i) = [] := by
    rw [List.filter_eq_nil_iff]
    intro c hc
    obtain ⟨r, _, rfl⟩ := List.mem_map.mp hc
    have hn : (roomConOf preferences rooms r).name = ConName.room r := rfl
    simp [hn]
  rw [h1, h2, List.append_nil]

theorem subjectTo_filter_room (preferences rooms : List Row) (r : ℕ)
    (hr : r < rooms.length) :
    (subjectToOf preferences rooms).filter (fun c => c.name == ConName.room r) =
      [roomConOf preferences rooms r] := by
  unfold subjectToOf
  rw [List.filter_append]
  have h1 : ((List.range preferences.length).map (resConOf preferences rooms)).filter
      (fun c => c.name == ConName.room r) = [] := by
    rw [List.filter_eq_nil_iff]
    intro c hc
    obtain ⟨i, _, rfl⟩ := List.mem_map.mp hc
    have hn : (resConOf preferences rooms i).name = ConName.res i := rfl
    simp [hn]
  have h2 : ((List.range rooms.length).map (roomConOf preferences rooms)).filter
      (fun c => c.name == ConName.room r) = [roomConOf preferences rooms r] := by
    rw [List.filter_map]
    have hcong : ∀ s ∈ List.range rooms.length,
        ((fun c => c.name == ConName.room r) ∘ roomConOf preferences rooms) s = (s == r) := by
      intro s _
      rw [Function.comp_apply, Bool.eq_iff_iff]
      have hn : (roomConOf preferences rooms s).name = ConName.room s := rfl
      rw [hn]
      simp
    rw [List.filter_congr hcong, range_filter_eq _ _ hr, List.map_cons, List.map_nil]
  rw [h1, h2, List.nil_append]

theorem conSum_const_coef (x : VKey → ℚ) (c : ℚ) (L : List (VKey × ℚ))
    (h : ∀ p ∈ L, p.2 = c) :
    (L.map fun p => p.2 * x p.1).sum = c * ((L.map Prod.fst).map x).sum := by
  induction L with
  | nil => simp
  | cons p rest ih =>
    simp only [List.map_cons, List.sum_cons]
    rw [h p (List.mem_cons_self p rest), ih fun q hq => h q (List.mem_cons_of_mem p hq)]
    ring

theorem sum_binary_eq_filter_length (x : VKey → ℚ) (l : List VKey)
    (hb : ∀ v, x v = 0 ∨ x v = 1) :
    (l.map x).sum = ((l.filter fun v => decide (x v = 1)).length : ℚ) := by
  induction l with
  | nil => simp
  | cons v rest ih =>
    simp only [List.map_cons, List.sum_cons, List.filter_cons]
    rcases hb v with h | h
    · have hne : ¬ x v = 1 := by rw [h]; norm_num
      simp [h, hne, ih]
    · rw [if_pos (by simp [h])]
      simp only [List.length_cons]
      rw [h, ih]
      push_cast
      ring

theorem filter_length_eq (l1 l2 : List VKey) (h1 : l1.Nodup) (h2 : l2.Nodup)
    (hmem : ∀ v, v ∈ l1 ↔ v ∈ l2) : l1.length = l2.length := by
  rw [← List.toFinset_card_of_nodup h1, ← List.toFinset_card_of_nodup h2]
  congr 1
  ext v
  rw [List.mem_toFinset, List.mem_toFinset]
  exact hmem v

/-- C4: for every resident index `i`, the built model contains exactly one
per-resident constraint (named `res_i`); its variable list is precisely the
generated decision variables that include resident `i` over every room and
partner, each entry with coefficient 1 and no variable repeated, and it is
bounded as a fixed equality with lower and upper bound both 1. -/
theorem c4_resident_constraint (preferences rooms key : List Row) (i : ℕ)
    (hi : i < preferences.length) :
    ((buildLP preferences rooms key).subjectTo.filter
        fun c => c.name == ConName.res i) = [resConOf preferences rooms i] ∧
      (∀ p : VKey × ℚ, p ∈ (resConOf preferences rooms i).cvars ↔
        p.2 = 1 ∧ p.1 ∈ varListOf preferences rooms ∧ (p.1.i = i ∨ p.1.j = i)) ∧
      ((resConOf preferences rooms i).cvars.map Prod.fst).Nodup ∧
      (resConOf preferences rooms i).btype = BndsType.fx ∧
      (resConOf preferences rooms i).lb = 1 ∧
      (resConOf preferences rooms i).ub = some 1 := by
  refine ⟨?_, fun p => mem_resConOf_cvars, nodup_resConOf_keys preferences rooms i,
    rfl, rfl, rfl⟩
  exact subjectTo_filter_res preferences rooms i hi

theorem c4_witness :
    (0 : ℕ) < ([[("Name", "A"), ("Gender", "M")], [("Name", "B"), ("Gender", "M")]] :
        List Row).length ∧
      ((buildLP [[("Name", "A"), ("Gender", "M")], [("Name", "B"), ("Gender", "M")]]
          [[("Room", "R1"), ("Capacity", "2")]]
          [[("Category", "clean"), ("Weighting", "1")]]).subjectTo.filter
        fun c => c.name == ConName.res 0) =
        [resConOf [[("Name", "A"), ("Gender", "M")], [("Name", "B"), ("Gender", "M")]]
          [[("Room", "R1"), ("Capacity", "2")]] 0] :=
  ⟨by decide,
   (c4_resident_constraint [[("Name", "A"), ("Gender", "M")], [("Name", "B"), ("Gender", "M")]]
     [[("Room", "R1"), ("Capacity", "2")]] [[("Category", "clean"), ("Weighting", "1")]] 0
     (by decide)).1⟩

/-- C5: for every room index `r`, the built model contains exactly one
capacity constraint (named `room_r`); its variable list is precisely the
generated decision variables for room `r`, each entry with coefficient 2
and no variable repeated, upper-bounded (`GLP_UP`) by that room record's
capacity, so that any feasible 0/1 solution puts at most capacity/2
accepted pairs in the room. -/
theorem c5_room_capacity_constraint (preferences rooms key : List Row) (r : ℕ)
    (hr : r < rooms.length) :
    ((buildLP preferences rooms key).subjectTo.filter
        fun c => c.name == ConName.room r) = [roomConOf preferences rooms r] ∧
      (∀ p : VKey × ℚ, p ∈ (roomConOf preferences rooms r).cvars ↔
        p.2 = 2 ∧ p.1 ∈ varListOf preferences rooms ∧ p.1.r = r) ∧
      ((roomConOf preferences rooms r).cvars.map Prod.fst).Nodup ∧
      (roomConOf preferences rooms r).btype = BndsType.up ∧
      (roomConOf preferences rooms r).ub = jsNumField ((rooms.getD r []).lookup "Capacity") ∧
      ∀ (x : VKey → ℚ) (cap : ℚ),
        (roomConOf preferences rooms r).ub = some cap →
        (∀ v, x v = 0 ∨ x v = 1) →
        satCon x (roomConOf preferences rooms r) →
        2 * (((varListOf preferences rooms).filter fun v =>
            decide (v.r = r ∧ x v = 1)).length : ℚ) ≤ cap := by
  refine ⟨?_, fun p => mem_roomConOf_cvars, nodup_roomConOf_keys preferences rooms r,
    rfl, ?_, ?_⟩
  · exact subjectTo_filter_room preferences rooms r hr
  · show (roomCapsOf rooms).getD r none = _
    rw [roomCapsOf, List.getD_eq_getElem _ none (by simpa using hr), List.getElem_map,
      List.getD_eq_getElem _ [] hr]
  · intro x cap hub hbin hsat
    have hsat2 : (match (roomConOf preferences rooms r).ub with
        | some u => conSum x (roomConOf preferences rooms r) ≤ u
        | none => False) := hsat
    rw [hub] at hsat2
    have hcoef : ∀ p ∈ (roomConOf preferences rooms r).cvars, p.2 = 2 :=
      fun p hp => (mem_roomConOf_cvars.mp hp).1
    unfold conSum at hsat2
    rw [conSum_const_coef x 2 _ hcoef, sum_binary_eq_filter_length x _ hbin] at hsat2
    have hlen : (((roomConOf preferences rooms r).cvars.map Prod.fst).filter
        fun v => decide (x v = 1)).length =
        ((varListOf preferences rooms).filter fun v => decide (v.r = r ∧ x v = 1)).length := by
      refine filter_length_eq _ _ ((nodup_roomConOf_keys preferences rooms r).filter _)
        ((nodup_varListOf preferences rooms).filter _) fun v => ?_
      rw [List.mem_filter, List.mem_filter, mem_roomConOf_keys]
      simp only [decide_eq_true_eq]
      tauto
    rw [hlen] at hsat2
    exact hsat2

theorem c5_witness :
    (0 : ℕ) < ([[("Room", "R1"), ("Capacity", "2")]] : List Row).length ∧
      ((buildLP [[("Name", "A"), ("Gender", "M")], [("Name", "B"), ("Gender", "M")]]
          [[("Room", "R1"), ("Capacity", "2")]]
          [[("Category", "clean"), ("Weighting", "1")]]).subjectTo.filter
        fun c => c.name == ConName.room 0) =
        [roomConOf [[("Name", "A"), ("Gender", "M")], [("Name", "B"), ("Gender", "M")]]
          [[("Room", "R1"), ("Capacity", "2")]] 0] :=
  ⟨by decide,
   (c5_room_capacity_constraint
     [[("Name", "A"), ("Gender", "M")], [("Name", "B"), ("Gender", "M")]]
     [[("Room", "R1"), ("Capacity", "2")]] [[("Category", "clean"), ("Weighting", "1")]] 0
     (by decide)).1⟩

end Roommate
